import Mathlib

/-!
Shallow embedding of the base62 codec (schwid/base62, `base62.go`).

Bytes are modelled as `Nat` values (`< 256` where it matters), Go strings as
`List Nat` of their bytes, `uint64` arithmetic as `Nat` arithmetic with an
explicit `% 2 ^ 64`, and `math/big.Int` values as unbounded `Nat`.
A Go runtime panic is modelled as an explicit failure value.
-/

set_option maxRecDepth 100000

namespace Base62

/-- Generic positional fold: the value of the digit list `l` in radix `r`,
starting from accumulator `a`.  `foldVal 256 0` is `big.Int.SetBytes`,
`foldVal 62 0` is the base62 value of a digit sequence. -/
def foldVal (r a : Nat) (l : List Nat) : Nat :=
  l.foldl (fun x d => x * r + d) a

/-- Go constant `radix = uint64(62)`. -/
def radix : Nat := 62

/-- Go `Encoding` struct: `alphabet [62]byte`, `decodeMap [256]byte`,
`alphabetIdx0 byte`.  The two arrays are modelled as lists of the
corresponding lengths. -/
structure Encoding where
  alphabet : List Nat
  decodeMap : List Nat
  alphabetIdx0 : Nat

/-- Go loop `for i, b := range enc.alphabet { enc.decodeMap[b] = byte(i) }`:
starting from `m`, set position `b` to the running index for each entry. -/
def setEntries : List Nat → Nat → List Nat → List Nat
  | m, _, [] => m
  | m, i, b :: rest => setEntries (m.set b i) (i + 1) rest

/-- Go `New`: copy the argument into the 62-byte `alphabet` array (shorter
input leaves trailing zero bytes), fill `decodeMap` with 255, then invert the
alphabet; `alphabetIdx0` is the argument's first byte. -/
def New (alphabet : List Nat) : Encoding :=
  let alpha := alphabet.take 62 ++ List.replicate (62 - alphabet.length) 0
  { alphabet := alpha
    decodeMap := setEntries (List.replicate 256 255) 0 alpha
    alphabetIdx0 := alphabet.headD 0 }

/-- Byte values of `"0123456789abcdefghijklmnopqrstuvwxyzABCDEFGHIJKLMNOPQRSTUVWXYZ"`. -/
def stdAlphabet : List Nat :=
  (List.range 10).map (fun i => 48 + i) ++
    (List.range 26).map (fun i => 97 + i) ++
    (List.range 26).map (fun i => 65 + i)

/-- Go `StdEncoding = New([]byte("0123...XYZ"))`. -/
def StdEncoding : Encoding := New stdAlphabet

/-- Go `bigRadix` table: `bigRadix[n] = 62^n` for `1 ≤ n ≤ 10`, with a
`big.NewInt(0)` in slot 0. -/
def bigRadix : List Nat :=
  [0, 62, 62 ^ 2, 62 ^ 3, 62 ^ 4, 62 ^ 5, 62 ^ 6, 62 ^ 7, 62 ^ 8, 62 ^ 9, 62 ^ 10]

/-- Go `bigRadix10 = big.NewInt(62^10)`. -/
def bigRadix10 : Nat := 62 ^ 10

/-- Go inner loop of `EncodeToString` for the most significant chunk:
`for m > 0 { answer = append(answer, e.alphabet[m%62]); m /= 62 }`.
The list is in emission order (least significant digit first). -/
def minDigits (e : Encoding) (m : Nat) : List Nat :=
  if h : m = 0 then []
  else e.alphabet.getD (m % 62) 0 :: minDigits e (m / 62)
termination_by m
decreasing_by exact Nat.div_lt_self (Nat.pos_of_ne_zero h) (by omega)

/-- Go inner loop of `EncodeToString` for full chunks: exactly `k` iterations
of `answer = append(answer, e.alphabet[m%62]); m /= 62` (with `k = 10`). -/
def tenDigits (e : Encoding) : Nat → Nat → List Nat
  | 0, _ => []
  | k + 1, m => e.alphabet.getD (m % 62) 0 :: tenDigits e k (m / 62)

/-- Go outer loop of `EncodeToString`: while `x > 0`, divide by `62^10`; if
the quotient is zero emit the remainder's minimal digits, otherwise emit
exactly ten digits and continue on the quotient.  Output is in emission
order (least significant first, as appended to `answer`). -/
def encodeLoop (e : Encoding) (x : Nat) : List Nat :=
  if h : x = 0 then []
  else if x / bigRadix10 = 0 then minDigits e (x % bigRadix10)
  else tenDigits e 10 (x % bigRadix10) ++ encodeLoop e (x / bigRadix10)
termination_by x
decreasing_by
  exact Nat.div_lt_self (Nat.pos_of_ne_zero h) (by norm_num [bigRadix10])

/-- Go `EncodeToString`: interpret the bytes as a big-endian integer, run the
chunk loop, append one `alphabetIdx0` per leading zero byte of the input,
and reverse the whole buffer. -/
def EncodeToString (e : Encoding) (b : List Nat) : List Nat :=
  (encodeLoop e (foldVal 256 0 b) ++
    List.replicate ((b.takeWhile (· == 0)).length) e.alphabetIdx0).reverse

/-- Go `EncodeUint64` digit loop: `for n > 0 { n, mod = n/radix, n%radix;
i--; answer[i] = e.alphabet[mod] }`.  Writing backwards into the buffer and
returning `answer[i:]` yields most significant digit first. -/
def encodeUint64Loop (e : Encoding) (n : Nat) : List Nat :=
  if h : n = 0 then []
  else encodeUint64Loop e (n / radix) ++ [e.alphabet.getD (n % radix) 0]
termination_by n
decreasing_by exact Nat.div_lt_self (Nat.pos_of_ne_zero h) (by norm_num [radix])

/-- Go `EncodeUint64`: zero encodes to the single `alphabetIdx0` symbol,
otherwise the digit loop runs. -/
def EncodeUint64 (e : Encoding) (n : Nat) : List Nat :=
  if n = 0 then [e.alphabetIdx0] else encodeUint64Loop e n

/-- Errors produced by Go `DecodeToUint64` via `fmt.Errorf`: the invalid
character message carries the offending character and the whole input, the
overflow message carries the whole input. -/
inductive DecodeError where
  | invalidCharacter (c : Nat) (src : List Nat)
  | overflow (src : List Nat)
deriving DecidableEq, Repr

/-- Go `DecodeToUint64` loop over the bytes of `src`:
`i = e.decodeMap[c]`, then `if i < 0` (which is never true, `i` being an
unsigned byte in the source), then `m = n*radix + uint64(i)` with the
wraparound check `m < n`. -/
def decodeUint64Loop (e : Encoding) (src : List Nat) : List Nat → Nat → Except DecodeError Nat
  | [], n => .ok n
  | c :: rest, n =>
    let i := e.decodeMap.getD c 255
    if i < 0 then .error (.invalidCharacter c src)
    else
      let m := (n * radix + i) % 2 ^ 64
      if m < n then .error (.overflow src)
      else decodeUint64Loop e src rest m

/-- Go `DecodeToUint64`: iterate over `[]byte(src)` with accumulator 0. -/
def DecodeToUint64 (e : Encoding) (src : List Nat) : Except DecodeError Nat :=
  decodeUint64Loop e src src 0

/-- Go `utf8` semantics of `for _, v := range s` for the first rune: given
the first byte and the remaining bytes, return the decoded rune and its byte
size.  Invalid, truncated, overlong and surrogate sequences yield
`(0xFFFD, 1)` exactly as `utf8.DecodeRuneInString` does. -/
def decodeRune (c0 : Nat) (rest : List Nat) : Nat × Nat :=
  if c0 < 0x80 then (c0, 1)
  else if c0 < 0xC2 then (0xFFFD, 1)
  else if c0 < 0xE0 then
    match rest with
    | [] => (0xFFFD, 1)
    | b1 :: _ =>
      if 0x80 ≤ b1 ∧ b1 ≤ 0xBF then ((c0 % 0x20) * 0x40 + b1 % 0x40, 2)
      else (0xFFFD, 1)
  else if c0 < 0xF0 then
    match rest with
    | [] => (0xFFFD, 1)
    | b1 :: rest2 =>
      if (if c0 = 0xE0 then 0xA0 else 0x80) ≤ b1 ∧
          b1 ≤ (if c0 = 0xED then 0x9F else 0xBF) then
        match rest2 with
        | [] => (0xFFFD, 1)
        | b2 :: _ =>
          if 0x80 ≤ b2 ∧ b2 ≤ 0xBF then
            ((c0 % 0x10) * 0x1000 + (b1 % 0x40) * 0x40 + b2 % 0x40, 3)
          else (0xFFFD, 1)
      else (0xFFFD, 1)
  else if c0 < 0xF5 then
    match rest with
    | [] => (0xFFFD, 1)
    | b1 :: rest2 =>
      if (if c0 = 0xF0 then 0x90 else 0x80) ≤ b1 ∧
          b1 ≤ (if c0 = 0xF4 then 0x8F else 0xBF) then
        match rest2 with
        | [] => (0xFFFD, 1)
        | b2 :: rest3 =>
          if 0x80 ≤ b2 ∧ b2 ≤ 0xBF then
            match rest3 with
            | [] => (0xFFFD, 1)
            | b3 :: _ =>
              if 0x80 ≤ b3 ∧ b3 ≤ 0xBF then
                ((c0 % 8) * 0x40000 + (b1 % 0x40) * 0x1000 +
                  (b2 % 0x40) * 0x40 + b3 % 0x40, 4)
              else (0xFFFD, 1)
          else (0xFFFD, 1)
      else (0xFFFD, 1)
  else (0xFFFD, 1)

theorem decodeRune_size_pos (c0 : Nat) (rest : List Nat) :
    1 ≤ (decodeRune c0 rest).2 := by
  unfold decodeRune
  repeat' split
  all_goals norm_num

/-- The rune sequence Go's `for _, v := range s` iterates over, for a string
with byte list `s`. -/
def utf8Runes : List Nat → List Nat
  | [] => []
  | c0 :: rest =>
    (decodeRune c0 rest).1 :: utf8Runes ((c0 :: rest).drop (decodeRune c0 rest).2)
termination_by l => l.length
decreasing_by
  rename_i tail
  have h1 := decodeRune_size_pos b1 tail
  simp only [List.length_drop, List.length_cons]
  omega

/-- Outcomes that abort Go `DecodeString` before it builds a result: a
runtime panic (`decodeMap[v]` indexed with a rune out of the array's range),
or the early `return []byte("")` on an invalid character. -/
inductive Halt where
  | indexOutOfRange
  | invalidChar
deriving DecidableEq, Repr

/-- Go inner chunk loop of `DecodeString`:
`for _, v := range t[:n] { ch := e.decodeMap[v]; if ch == 255 { return ... };
total = total*62 + uint64(ch) }`, iterating over the chunk's runes.
Indexing `decodeMap` with a rune `v ≥ 256` panics. -/
def chunkTotal (e : Encoding) : List Nat → Nat → Except Halt Nat
  | [], total => .ok total
  | v :: rest, total =>
    if 256 ≤ v then .error .indexOutOfRange
    else
      let ch := e.decodeMap.getD v 255
      if ch = 255 then .error .invalidChar
      else chunkTotal e rest ((total * 62 + ch) % 2 ^ 64)

/-- Go outer loop of `DecodeString`: take chunks of up to 10 bytes, fold each
chunk's runes into a 64-bit `total`, and fold that into the big-integer
accumulator via `answer = answer*bigRadix[n] + total`. -/
def decodeLoop (e : Encoding) (t : List Nat) (answer : Nat) : Except Halt Nat :=
  if ht : t = [] then .ok answer
  else
    let n := min t.length 10
    match chunkTotal e (utf8Runes (t.take n)) 0 with
    | .error h => .error h
    | .ok total => decodeLoop e (t.drop n) (answer * bigRadix.getD n 0 + total)
termination_by t.length
decreasing_by
  simp only [List.length_drop]
  have h1 : 0 < t.length := List.length_pos.mpr ht
  omega

/-- Minimal big-endian byte representation of a natural number, as produced
by `big.Int.Bytes` (`answer.Bytes()` in the source); zero gives the empty
list. -/
def natToBeBytes (n : Nat) : List Nat :=
  if h : n = 0 then []
  else natToBeBytes (n / 256) ++ [n % 256]
termination_by n
decreasing_by exact Nat.div_lt_self (Nat.pos_of_ne_zero h) (by omega)

/-- Go `DecodeString`: run the chunk loop, and on success prepend one zero
byte per leading `alphabetIdx0` byte of the input to the accumulator's
minimal byte form.  `none` models the runtime panic; the early return on an
invalid character gives `some []`. -/
def DecodeString (e : Encoding) (b : List Nat) : Option (List Nat) :=
  match decodeLoop e b 0 with
  | .error .indexOutOfRange => none
  | .error .invalidChar => some []
  | .ok answer =>
    some (List.replicate ((b.takeWhile (· == e.alphabetIdx0)).length) 0 ++
      natToBeBytes answer)

/-- The base62 value a string denotes through an encoding's decode map
(digit at each byte, most significant first); used only to state claims. -/
def base62Val (e : Encoding) (s : List Nat) : Nat :=
  foldVal 62 0 (s.map (fun c => e.decodeMap.getD c 255))

/-- Minimal base-62 digit sequence of `n`, least significant first
(abstraction of the symbol-emitting loops). -/
def digitsLSB (n : Nat) : List Nat :=
  if h : n = 0 then [] else n % 62 :: digitsLSB (n / 62)
termination_by n
decreasing_by exact Nat.div_lt_self (Nat.pos_of_ne_zero h) (by omega)

/-- Exactly `k` base-62 digits of `m`, least significant first, zero padded
(abstraction of `tenDigits`). -/
def padDigits : Nat → Nat → List Nat
  | 0, _ => []
  | k + 1, m => m % 62 :: padDigits k (m / 62)

theorem foldVal_nil (r a : Nat) : foldVal r a [] = a := rfl

theorem foldVal_cons (r a d : Nat) (l : List Nat) :
    foldVal r a (d :: l) = foldVal r (a * r + d) l := rfl

theorem foldVal_append (r a : Nat) (l1 l2 : List Nat) :
    foldVal r a (l1 ++ l2) = foldVal r (foldVal r a l1) l2 :=
  List.foldl_append _ _ _ _

theorem foldVal_split (r : Nat) (l : List Nat) (a : Nat) :
    foldVal r a l = a * r ^ l.length + foldVal r 0 l := by
  induction l generalizing a with
  | nil => simp [foldVal]
  | cons d t ih =>
    rw [foldVal_cons, foldVal_cons, ih (a * r + d), ih (0 * r + d)]
    simp only [List.length_cons, pow_succ]
    ring

theorem foldVal_le (r : Nat) (l : List Nat) (a : Nat) (hr : 1 ≤ r) :
    a ≤ foldVal r a l := by
  induction l generalizing a with
  | nil => exact Nat.le_refl a
  | cons d t ih =>
    rw [foldVal_cons]
    calc a ≤ a * r := Nat.le_mul_of_pos_right a hr
    _ ≤ a * r + d := Nat.le_add_right _ _
    _ ≤ foldVal r (a * r + d) t := ih _

theorem foldVal_lt (r : Nat) (l : List Nat) (a : Nat) (hd : ∀ d ∈ l, d < r) :
    foldVal r a l < (a + 1) * r ^ l.length := by
  induction l generalizing a with
  | nil => simp [foldVal]
  | cons d t ih =>
    rw [foldVal_cons]
    have h1 : foldVal r (a * r + d) t < (a * r + d + 1) * r ^ t.length :=
      ih _ (fun x hx => hd x (List.mem_cons_of_mem d hx))
    have h2 : (a * r + d + 1) * r ^ t.length ≤ (a + 1) * r ^ (d :: t).length := by
      have hdr : d + 1 ≤ r := hd d (List.mem_cons_self d t)
      have : a * r + d + 1 ≤ (a + 1) * r := by nlinarith
      calc (a * r + d + 1) * r ^ t.length ≤ (a + 1) * r * r ^ t.length :=
            Nat.mul_le_mul_right _ this
      _ = (a + 1) * r ^ (d :: t).length := by
            rw [List.length_cons, pow_succ]; ring
    omega

theorem foldVal_zero_lt (r : Nat) (l : List Nat) (hd : ∀ d ∈ l, d < r) :
    foldVal r 0 l < r ^ l.length := by
  have := foldVal_lt r l 0 hd
  simpa using this

theorem foldVal_replicate_zero (r k : Nat) :
    foldVal r 0 (List.replicate k 0) = 0 := by
  induction k with
  | zero => rfl
  | succ k ih => rw [List.replicate_succ, foldVal_cons]; simpa using ih

theorem foldVal_pos (r x : Nat) (xs : List Nat) (hx : x ≠ 0) (hr : 1 ≤ r) :
    0 < foldVal r 0 (x :: xs) := by
  rw [foldVal_cons]
  have : x ≤ foldVal r (0 * r + x) xs := by
    simpa using foldVal_le r xs x hr
  omega

theorem digitsLSB_zero : digitsLSB 0 = [] := by simp [digitsLSB]

theorem digitsLSB_of_ne (n : Nat) (h : n ≠ 0) :
    digitsLSB n = n % 62 :: digitsLSB (n / 62) := by
  rw [digitsLSB]; simp [h]

theorem digitsLSB_lt (n : Nat) : ∀ d ∈ digitsLSB n, d < 62 := by
  induction n using Nat.strong_induction_on with
  | _ n ih =>
    intro d hd
    by_cases h : n = 0
    · rw [h, digitsLSB_zero] at hd; exact absurd hd (List.not_mem_nil d)
    · rw [digitsLSB_of_ne n h] at hd
      rcases List.mem_cons.mp hd with h1 | h1
      · rw [h1]; exact Nat.mod_lt n (by omega)
      · exact ih (n / 62) (Nat.div_lt_self (Nat.pos_of_ne_zero h) (by omega)) d h1

theorem foldVal_reverse_digitsLSB (n : Nat) :
    foldVal 62 0 (digitsLSB n).reverse = n := by
  have key : ∀ m : Nat, (digitsLSB m).foldr (fun d a => a * 62 + d) 0 = m := by
    intro m
    induction m using Nat.strong_induction_on with
    | _ m ih =>
      by_cases h : m = 0
      · rw [h, digitsLSB_zero]; rfl
      · rw [digitsLSB_of_ne m h, List.foldr_cons,
          ih (m / 62) (Nat.div_lt_self (Nat.pos_of_ne_zero h) (by omega))]
        omega
  unfold foldVal
  rw [List.foldl_reverse]
  exact key n

theorem digitsLSB_chunk (k : Nat) : ∀ n : Nat, 0 < n / 62 ^ k →
    digitsLSB n = padDigits k (n % 62 ^ k) ++ digitsLSB (n / 62 ^ k) := by
  induction k with
  | zero => intro n _; simp [padDigits]
  | succ k ih =>
    intro n hn
    have hne : n ≠ 0 := by
      intro h0; rw [h0] at hn; simp at hn
    have hmod : n % 62 ^ (k + 1) % 62 = n % 62 :=
      Nat.mod_mod_of_dvd n (dvd_pow_self 62 (Nat.succ_ne_zero k))
    have hdivmod : n % 62 ^ (k + 1) / 62 = n / 62 % 62 ^ k := by
      have := Nat.mod_mul_right_div_self n 62 (62 ^ k)
      rwa [← pow_succ'] at this
    have hdivdiv : n / 62 ^ (k + 1) = n / 62 / 62 ^ k := by
      rw [Nat.div_div_eq_div_mul, ← pow_succ']
    rw [digitsLSB_of_ne n hne, padDigits, hmod, hdivmod, hdivdiv,
      ih (n / 62) (by rw [← hdivdiv]; exact hn)]
    simp

theorem minDigits_eq (e : Encoding) (m : Nat) :
    minDigits e m = (digitsLSB m).map (fun d => e.alphabet.getD d 0) := by
  induction m using Nat.strong_induction_on with
  | _ m ih =>
    by_cases h : m = 0
    · rw [h, digitsLSB_zero, minDigits]; simp
    · rw [minDigits, digitsLSB_of_ne m h]
      simp only [h, dite_false, List.map_cons]
      rw [ih (m / 62) (Nat.div_lt_self (Nat.pos_of_ne_zero h) (by omega))]

theorem tenDigits_eq (e : Encoding) (k : Nat) : ∀ m : Nat,
    tenDigits e k m = (padDigits k m).map (fun d => e.alphabet.getD d 0) := by
  induction k with
  | zero => intro m; rfl
  | succ k ih => intro m; rw [tenDigits, padDigits, List.map_cons, ih (m / 62)]

theorem encodeLoop_eq (e : Encoding) (x : Nat) :
    encodeLoop e x = (digitsLSB x).map (fun d => e.alphabet.getD d 0) := by
  induction x using Nat.strong_induction_on with
  | _ x ih =>
    by_cases h : x = 0
    · rw [h, digitsLSB_zero, encodeLoop]; simp
    · rw [encodeLoop]
      simp only [h, dite_false]
      by_cases hq : x / bigRadix10 = 0
      · have hlt : x < 62 ^ 10 := by
          rw [bigRadix10] at hq
          exact (Nat.div_eq_zero_iff (by positivity)).mp hq
        rw [if_pos hq, minDigits_eq, bigRadix10, Nat.mod_eq_of_lt hlt]
      · rw [if_neg hq, tenDigits_eq,
          ih (x / bigRadix10)
            (Nat.div_lt_self (Nat.pos_of_ne_zero h) (by norm_num [bigRadix10])),
          bigRadix10,
          ← List.map_append, ← digitsLSB_chunk 10 x (Nat.pos_of_ne_zero ?_)]
        rw [bigRadix10] at hq
        exact hq

theorem encodeUint64Loop_eq (e : Encoding) (n : Nat) :
    encodeUint64Loop e n = ((digitsLSB n).map (fun d => e.alphabet.getD d 0)).reverse := by
  induction n using Nat.strong_induction_on with
  | _ n ih =>
    by_cases h : n = 0
    · rw [h, digitsLSB_zero, encodeUint64Loop]; simp
    · rw [encodeUint64Loop]
      simp only [h, dite_false]
      rw [digitsLSB_of_ne n h, List.map_cons, List.reverse_cons,
        ih (n / radix) (Nat.div_lt_self (Nat.pos_of_ne_zero h) (by norm_num [radix]))]
      rfl

theorem foldVal_natToBeBytes (n : Nat) : foldVal 256 0 (natToBeBytes n) = n := by
  induction n using Nat.strong_induction_on with
  | _ n ih =>
    by_cases h : n = 0
    · rw [h, natToBeBytes]; rfl
    · rw [natToBeBytes]
      simp only [h, dite_false]
      rw [foldVal_append,
        ih (n / 256) (Nat.div_lt_self (Nat.pos_of_ne_zero h) (by omega))]
      show n / 256 * 256 + n % 256 = n
      omega

theorem natToBeBytes_lt (n : Nat) : ∀ x ∈ natToBeBytes n, x < 256 := by
  induction n using Nat.strong_induction_on with
  | _ n ih =>
    intro x hx
    by_cases h : n = 0
    · rw [h, natToBeBytes] at hx; simp at hx
    · rw [natToBeBytes] at hx
      simp only [h, dite_false, List.mem_append] at hx
      rcases hx with h1 | h1
      · exact ih (n / 256) (Nat.div_lt_self (Nat.pos_of_ne_zero h) (by omega)) x h1
      · simp at h1; omega

theorem natToBeBytes_head (n : Nat) (h : n ≠ 0) :
    ∃ x xs, natToBeBytes n = x :: xs ∧ x ≠ 0 := by
  induction n using Nat.strong_induction_on with
  | _ n ih =>
    rw [natToBeBytes]
    simp only [h, dite_false]
    by_cases hq : n / 256 = 0
    · refine ⟨n % 256, [], ?_, ?_⟩
      · rw [hq, natToBeBytes]; rfl
      · have : n < 256 := (Nat.div_eq_zero_iff (by omega)).mp hq
        rw [Nat.mod_eq_of_lt this]; exact h
    · obtain ⟨x, xs, hx, hxne⟩ :=
        ih (n / 256) (Nat.div_lt_self (Nat.pos_of_ne_zero h) (by omega)) hq
      exact ⟨x, xs ++ [n % 256], by rw [hx]; rfl, hxne⟩

theorem natToBeBytes_foldVal (l : List Nat) (hb : ∀ x ∈ l, x < 256)
    (hh : l.headD 1 ≠ 0) : natToBeBytes (foldVal 256 0 l) = l := by
  induction l using List.reverseRecOn with
  | nil => rw [foldVal_nil, natToBeBytes]; rfl
  | append_singleton l x ih =>
    have hx : x < 256 := hb x (by simp)
    rw [foldVal_append]
    cases l with
    | nil =>
      have hxne : x ≠ 0 := by simpa using hh
      rw [foldVal_nil, foldVal_cons, foldVal_nil, natToBeBytes]
      simp only [show (0 : Nat) * 256 + x = x from by omega, hxne, dite_false]
      rw [Nat.div_eq_of_lt hx, Nat.mod_eq_of_lt hx, natToBeBytes]
      rfl
    | cons y ys =>
      have hy : y ≠ 0 := by simpa using hh
      have hv : 0 < foldVal 256 0 (y :: ys) := foldVal_pos 256 y ys hy (by omega)
      set v := foldVal 256 0 (y :: ys) with hvdef
      rw [foldVal_cons, foldVal_nil, natToBeBytes]
      have hne : v * 256 + x ≠ 0 := by omega
      simp only [hne, dite_false]
      have hdiv : (v * 256 + x) / 256 = v := by omega
      have hmod : (v * 256 + x) % 256 = x := by omega
      rw [hdiv, hmod, ih (fun z hz => hb z (List.mem_append_left _ hz)) (by simpa using hy)]

theorem digitsLSB_msb (n : Nat) (h : n ≠ 0) :
    ∃ d t, (digitsLSB n).reverse = d :: t ∧ d ≠ 0 ∧ d < 62 := by
  induction n using Nat.strong_induction_on with
  | _ n ih =>
    rw [digitsLSB_of_ne n h, List.reverse_cons]
    by_cases hq : n / 62 = 0
    · have hlt : n < 62 := (Nat.div_eq_zero_iff (by omega)).mp hq
      refine ⟨n % 62, [], ?_, ?_, Nat.mod_lt n (by omega)⟩
      · rw [hq, digitsLSB_zero]; rfl
      · rw [Nat.mod_eq_of_lt hlt]; exact h
    · obtain ⟨d, t, hdt, hd0, hd62⟩ :=
        ih (n / 62) (Nat.div_lt_self (Nat.pos_of_ne_zero h) (by omega)) hq
      exact ⟨d, t ++ [n % 62], by rw [hdt]; rfl, hd0, hd62⟩

/-! ### Concrete facts about the standard encoding table -/

theorem stdEncoding_alphabet : StdEncoding.alphabet = stdAlphabet := by decide

theorem stdEncoding_idx0 : StdEncoding.alphabetIdx0 = 48 := by decide

theorem stdAlphabet_length : stdAlphabet.length = 62 := by decide

theorem stdDecodeMap_length : StdEncoding.decodeMap.length = 256 := by decide

theorem stdDecodeMap_48 : StdEncoding.decodeMap.getD 48 255 = 0 := by decide

theorem stdDecodeMap_alphabet :
    ∀ d, d < 62 → StdEncoding.decodeMap.getD (stdAlphabet.getD d 0) 255 = d := by decide

theorem stdAlphabet_mem_spec :
    ∀ c ∈ stdAlphabet, StdEncoding.decodeMap.getD c 255 < 62 ∧ c < 128 := by decide

theorem stdAlphabet_getD_ne_48 :
    ∀ d, d < 62 → d ≠ 0 → stdAlphabet.getD d 0 ≠ 48 := by decide

theorem stdDecodeMap_not_mem :
    ∀ c, c < 256 → c ∉ stdAlphabet → StdEncoding.decodeMap.getD c 255 = 255 := by decide

theorem stdDecodeMap_invalid (c : Nat) (hc : c ∉ stdAlphabet) :
    StdEncoding.decodeMap.getD c 255 = 255 := by
  by_cases h : c < 256
  · exact stdDecodeMap_not_mem c h hc
  · exact List.getD_eq_default _ _ (by rw [stdDecodeMap_length]; omega)

theorem stdAlphabet_getD_mem (d : Nat) (hd : d < 62) :
    stdAlphabet.getD d 0 ∈ stdAlphabet := by
  rw [List.getD_eq_getElem stdAlphabet 0 (by rw [stdAlphabet_length]; omega)]
  exact List.getElem_mem _

theorem bigRadix_getD : ∀ n, n < 11 → 1 ≤ n → bigRadix.getD n 0 = 62 ^ n := by decide

/-! ### Decoding valid strings -/

theorem decodeRune_ascii (c0 : Nat) (rest : List Nat) (h : c0 < 128) :
    decodeRune c0 rest = (c0, 1) := by
  unfold decodeRune
  rw [if_pos h]

theorem utf8Runes_ascii (l : List Nat) (h : ∀ c ∈ l, c < 128) : utf8Runes l = l := by
  induction l using utf8Runes.induct with
  | case1 => rw [utf8Runes]
  | case2 c0 rest ih =>
    have hd := decodeRune_ascii c0 rest (h c0 (by simp))
    have hdrop : List.drop (decodeRune c0 rest).2 (c0 :: rest) = rest := by
      rw [hd]
      rfl
    rw [hdrop] at ih
    rw [utf8Runes, hd]
    show c0 :: utf8Runes rest = c0 :: rest
    rw [ih (fun c hc => h c (List.mem_cons_of_mem c0 hc))]

theorem chunkTotal_valid (e : Encoding) (chunk : List Nat) : ∀ t0 : Nat,
    (∀ v ∈ chunk, e.decodeMap.getD v 255 ≠ 255 ∧ v < 256) →
    foldVal 62 t0 (chunk.map (fun c => e.decodeMap.getD c 255)) < 2 ^ 64 →
    chunkTotal e chunk t0 =
      .ok (foldVal 62 t0 (chunk.map (fun c => e.decodeMap.getD c 255))) := by
  induction chunk with
  | nil => intro t0 _ _; rfl
  | cons v rest ih =>
    intro t0 hv hlt
    obtain ⟨hvne, hv256⟩ := hv v (List.mem_cons_self v rest)
    simp only [List.map_cons, foldVal_cons] at hlt ⊢
    rw [chunkTotal]
    simp only [if_neg (by omega : ¬ 256 ≤ v), if_neg hvne]
    have hle : t0 * 62 + e.decodeMap.getD v 255 ≤
        foldVal 62 (t0 * 62 + e.decodeMap.getD v 255)
          (rest.map (fun c => e.decodeMap.getD c 255)) :=
      foldVal_le _ _ _ (by omega)
    rw [Nat.mod_eq_of_lt (by omega)]
    exact ih _ (fun x hx => hv x (List.mem_cons_of_mem v hx)) hlt

theorem decodeLoop_valid : ∀ (n : Nat) (t : List Nat), t.length = n →
    ∀ a : Nat, (∀ c ∈ t, c ∈ stdAlphabet) →
    decodeLoop StdEncoding t a =
      .ok (foldVal 62 a (t.map (fun c => StdEncoding.decodeMap.getD c 255))) := by
  intro n
  induction n using Nat.strong_induction_on with
  | _ n ih =>
    intro t hlen a hmem
    by_cases hnil : t = []
    · subst hnil
      rw [decodeLoop]
      rfl
    · have hpos : 0 < t.length := List.length_pos.mpr hnil
      rw [decodeLoop]
      simp only [hnil, dite_false]
      have hn1 : 1 ≤ min t.length 10 := by omega
      have hn10 : min t.length 10 ≤ 10 := by omega
      have hnle : min t.length 10 ≤ t.length := by omega
      have hchunkmem : ∀ c ∈ t.take (min t.length 10), c ∈ stdAlphabet :=
        fun c hc => hmem c (List.mem_of_mem_take hc)
      have hascii : ∀ c ∈ t.take (min t.length 10), c < 128 :=
        fun c hc => (stdAlphabet_mem_spec c (hchunkmem c hc)).2
      have hlenchunk : (t.take (min t.length 10)).length = min t.length 10 := by
        rw [List.length_take]; omega
      have hne : ∀ v ∈ t.take (min t.length 10),
          StdEncoding.decodeMap.getD v 255 ≠ 255 ∧ v < 256 := by
        intro v hv
        have h1 := (stdAlphabet_mem_spec v (hchunkmem v hv)).1
        have h2 := (stdAlphabet_mem_spec v (hchunkmem v hv)).2
        exact ⟨by omega, by omega⟩
      have hbound : foldVal 62 0
          ((t.take (min t.length 10)).map (fun c => StdEncoding.decodeMap.getD c 255)) <
          2 ^ 64 := by
        have h1 : ∀ d ∈ (t.take (min t.length 10)).map
            (fun c => StdEncoding.decodeMap.getD c 255), d < 62 := by
          intro d hd
          obtain ⟨c, hc, rfl⟩ := List.mem_map.mp hd
          exact (stdAlphabet_mem_spec c (hchunkmem c hc)).1
        have h2 := foldVal_zero_lt 62 _ h1
        have h3 : (62 : Nat) ^ ((t.take (min t.length 10)).map
            (fun c => StdEncoding.decodeMap.getD c 255)).length ≤ 62 ^ 10 := by
          apply Nat.pow_le_pow_right (by omega)
          rw [List.length_map, hlenchunk]; omega
        have h4 : (62 : Nat) ^ 10 < 2 ^ 64 := by norm_num
        omega
      rw [utf8Runes_ascii _ hascii]
      simp only [chunkTotal_valid _ _ 0 hne hbound]
      rw [bigRadix_getD (min t.length 10) (by omega) hn1]
      rw [ih (t.drop (min t.length 10)).length
        (by rw [List.length_drop]; omega)
        (t.drop (min t.length 10)) rfl _
        (fun c hc => hmem c (List.mem_of_mem_drop hc))]
      congr 1
      conv_rhs => rw [← List.take_append_drop (min t.length 10) t]
      rw [List.map_append, foldVal_append,
        foldVal_split 62 ((t.take (min t.length 10)).map
          (fun c => StdEncoding.decodeMap.getD c 255)) a,
        List.length_map, hlenchunk]

/-- Characterization of `DecodeString` on strings made only of standard
alphabet symbols. -/
theorem decodeString_of_valid (b : List Nat) (h : ∀ c ∈ b, c ∈ stdAlphabet) :
    DecodeString StdEncoding b =
      some (List.replicate ((b.takeWhile (· == StdEncoding.alphabetIdx0)).length) 0 ++
        natToBeBytes (base62Val StdEncoding b)) := by
  unfold DecodeString
  rw [decodeLoop_valid b.length b rfl 0 h]
  rfl

/-! ### Shape of encoder output -/

theorem encodeToString_shape (e : Encoding) (b : List Nat) :
    EncodeToString e b =
      List.replicate ((b.takeWhile (· == 0)).length) e.alphabetIdx0 ++
        ((digitsLSB (foldVal 256 0 b)).map (fun d => e.alphabet.getD d 0)).reverse := by
  unfold EncodeToString
  rw [List.reverse_append, List.reverse_replicate, encodeLoop_eq]

theorem encodeToString_mem (b : List Nat) :
    ∀ c ∈ EncodeToString StdEncoding b, c ∈ stdAlphabet := by
  intro c hc
  rw [encodeToString_shape] at hc
  rcases List.mem_append.mp hc with h1 | h1
  · rw [stdEncoding_idx0] at h1
    rw [(List.mem_replicate.mp h1).2]
    decide
  · rw [List.mem_reverse] at h1
    obtain ⟨d, hd, rfl⟩ := List.mem_map.mp h1
    rw [stdEncoding_alphabet]
    exact stdAlphabet_getD_mem d (digitsLSB_lt _ d hd)

theorem encodeUint64_mem (n : Nat) :
    ∀ c ∈ EncodeUint64 StdEncoding n, c ∈ stdAlphabet := by
  intro c hc
  unfold EncodeUint64 at hc
  by_cases h : n = 0
  · simp only [h, if_pos] at hc
    rw [stdEncoding_idx0] at hc
    simp at hc
    rw [hc]; decide
  · rw [if_neg h, encodeUint64Loop_eq] at hc
    rw [List.mem_reverse] at hc
    obtain ⟨d, hd, rfl⟩ := List.mem_map.mp hc
    rw [stdEncoding_alphabet]
    exact stdAlphabet_getD_mem d (digitsLSB_lt _ d hd)

/-- The leading `alphabetIdx0` run of the encoded string is exactly the
leading zero-byte run of the input. -/
theorem encodeToString_takeWhile (b : List Nat) :
    (EncodeToString StdEncoding b).takeWhile (· == 48) =
      List.replicate ((b.takeWhile (· == 0)).length) 48 := by
  rw [encodeToString_shape, stdEncoding_idx0]
  rw [List.takeWhile_append]
  rw [List.takeWhile_replicate]
  simp only [beq_self_eq_true, if_true, List.length_replicate, if_pos rfl]
  by_cases hN : foldVal 256 0 b = 0
  · rw [hN, digitsLSB_zero]
    simp
  · obtain ⟨d, t, hdt, hd0, hd62⟩ := digitsLSB_msb _ hN
    rw [← List.map_reverse, hdt, List.map_cons, List.takeWhile_cons]
    rw [stdEncoding_alphabet]
    have : (stdAlphabet.getD d 0 == 48) = false := by
      have := stdAlphabet_getD_ne_48 d hd62 hd0
      simpa using this
    rw [this]
    simp

/-! ### The round trip -/

theorem takeWhile_zero_eq_replicate (b : List Nat) :
    b.takeWhile (· == 0) = List.replicate ((b.takeWhile (· == 0)).length) 0 := by
  rw [List.eq_replicate_iff]
  exact ⟨rfl, fun x hx => by simpa using List.mem_takeWhile_imp hx⟩

/-- Core round-trip lemma: decoding an encoded byte sequence gives it back. -/
theorem decodeString_encodeToString (b : List Nat) (hb : ∀ x ∈ b, x < 256) :
    DecodeString StdEncoding (EncodeToString StdEncoding b) = some b := by
  rw [decodeString_of_valid _ (encodeToString_mem b)]
  have hsplit := List.takeWhile_append_dropWhile (· == 0) b
  -- the decoded magnitude is the input's value
  have hval : base62Val StdEncoding (EncodeToString StdEncoding b) = foldVal 256 0 b := by
    unfold base62Val
    rw [encodeToString_shape, stdEncoding_idx0, List.map_append, List.map_replicate]
    have h48 : StdEncoding.decodeMap.getD 48 255 = 0 := stdDecodeMap_48
    rw [h48]
    rw [← List.map_reverse, List.map_map]
    have hid : (digitsLSB (foldVal 256 0 b)).reverse.map
        ((fun c => StdEncoding.decodeMap.getD c 255) ∘
          (fun d => StdEncoding.alphabet.getD d 0)) =
        (digitsLSB (foldVal 256 0 b)).reverse := by
      have := List.map_congr_left (l := (digitsLSB (foldVal 256 0 b)).reverse)
        (f := (fun c => StdEncoding.decodeMap.getD c 255) ∘
          (fun d => StdEncoding.alphabet.getD d 0)) (g := id) ?_
      · rw [this, List.map_id]
      · intro d hd
        have hd62 : d < 62 := digitsLSB_lt _ d (List.mem_reverse.mp hd)
        show StdEncoding.decodeMap.getD (StdEncoding.alphabet.getD d 0) 255 = d
        rw [stdEncoding_alphabet]
        exact stdDecodeMap_alphabet d hd62
    rw [hid, foldVal_append, foldVal_replicate_zero, foldVal_reverse_digitsLSB]
  rw [hval]
  -- the magnitude's byte form is the zero-stripped input
  have hrest : natToBeBytes (foldVal 256 0 b) = b.dropWhile (· == 0) := by
    have hv : foldVal 256 0 b = foldVal 256 0 (b.dropWhile (· == 0)) := by
      conv_lhs => rw [← hsplit]
      rw [foldVal_append, takeWhile_zero_eq_replicate, foldVal_replicate_zero]
    rw [hv]
    apply natToBeBytes_foldVal
    · exact fun x hx => hb x ((List.dropWhile_sublist (· == 0)).subset hx)
    · cases hdw : b.dropWhile (· == 0) with
      | nil => simp
      | cons y ys =>
        have h1 := List.head?_dropWhile_not (· == 0) b
        rw [hdw] at h1
        simpa using h1
  -- the leading-zero count carries over
  have hzeros : ((EncodeToString StdEncoding b).takeWhile
      (· == StdEncoding.alphabetIdx0)).length = (b.takeWhile (· == 0)).length := by
    rw [stdEncoding_idx0, encodeToString_takeWhile, List.length_replicate]
  rw [hzeros, hrest]
  rw [← takeWhile_zero_eq_replicate, hsplit]

/-! ### Fixed-width codec lemmas -/

theorem map_dm_alphabet (l : List Nat) (hl : ∀ d ∈ l, d < 62) :
    l.map ((fun c => StdEncoding.decodeMap.getD c 255) ∘
      (fun d => StdEncoding.alphabet.getD d 0)) = l := by
  have h := List.map_congr_left (l := l)
    (f := (fun c => StdEncoding.decodeMap.getD c 255) ∘
      (fun d => StdEncoding.alphabet.getD d 0)) (g := id) ?_
  · rw [h, List.map_id]
  · intro d hd
    show StdEncoding.decodeMap.getD (StdEncoding.alphabet.getD d 0) 255 = d
    rw [stdEncoding_alphabet]
    exact stdDecodeMap_alphabet d (hl d hd)

theorem decodeUint64Loop_ok (e : Encoding) (src : List Nat) (l : List Nat) :
    ∀ a : Nat,
    foldVal 62 a (l.map (fun c => e.decodeMap.getD c 255)) < 2 ^ 64 →
    decodeUint64Loop e src l a =
      .ok (foldVal 62 a (l.map (fun c => e.decodeMap.getD c 255))) := by
  induction l with
  | nil => intro a _; rfl
  | cons c rest ih =>
    intro a hlt
    simp only [List.map_cons, foldVal_cons] at hlt ⊢
    rw [decodeUint64Loop]
    simp only [Nat.not_lt_zero, if_false]
    have hle : a * 62 + e.decodeMap.getD c 255 ≤
        foldVal 62 (a * 62 + e.decodeMap.getD c 255)
          (rest.map (fun x => e.decodeMap.getD x 255)) :=
      foldVal_le _ _ _ (by omega)
    have hradix : radix = 62 := rfl
    rw [hradix, Nat.mod_eq_of_lt (by omega), if_neg (by omega)]
    exact ih _ hlt

theorem base62Val_encodeUint64 (n : Nat) :
    base62Val StdEncoding (EncodeUint64 StdEncoding n) = n := by
  unfold base62Val EncodeUint64
  by_cases h : n = 0
  · simp only [h, if_pos, stdEncoding_idx0]
    rw [show ([48] : List Nat).map (fun c => StdEncoding.decodeMap.getD c 255) =
      [0] from by rw [List.map_cons, stdDecodeMap_48]; rfl]
    rfl
  · rw [if_neg h, encodeUint64Loop_eq, ← List.map_reverse, List.map_map,
      map_dm_alphabet _ (fun d hd => digitsLSB_lt _ d (List.mem_reverse.mp hd)),
      foldVal_reverse_digitsLSB]

theorem digitsLSB_length_le : ∀ (k n : Nat), n < 62 ^ k → (digitsLSB n).length ≤ k := by
  intro k
  induction k with
  | zero =>
    intro n hn
    have : n = 0 := by omega
    rw [this, digitsLSB_zero]; simp
  | succ k ih =>
    intro n hn
    by_cases h : n = 0
    · rw [h, digitsLSB_zero]; simp
    · rw [digitsLSB_of_ne n h, List.length_cons]
      have : n / 62 < 62 ^ k := by
        rw [Nat.div_lt_iff_lt_mul (by omega)]
        calc n < 62 ^ (k + 1) := hn
        _ = 62 ^ k * 62 := by rw [pow_succ]
      exact Nat.succ_le_succ (ih (n / 62) this)

theorem encodeUint64_length (n : Nat) (h : n < 2 ^ 64) :
    (EncodeUint64 StdEncoding n).length ≤ 11 := by
  unfold EncodeUint64
  by_cases h0 : n = 0
  · simp [h0]
  · rw [if_neg h0, encodeUint64Loop_eq, List.length_reverse, List.length_map]
    apply digitsLSB_length_le 11 n
    calc n < 2 ^ 64 := h
    _ < 62 ^ 11 := by norm_num

theorem encode_twenty_zeros :
    EncodeToString StdEncoding (List.replicate 20 0) = List.replicate 20 48 := by
  rw [encodeToString_shape, stdEncoding_idx0, foldVal_replicate_zero,
    digitsLSB_zero, List.takeWhile_replicate]
  simp

/-! ### Table construction -/

theorem setEntries_length (L : List Nat) : ∀ (m : List Nat) (i : Nat),
    (setEntries m i L).length = m.length := by
  induction L with
  | nil => intro m i; rfl
  | cons b rest ih =>
    intro m i
    rw [setEntries, ih, List.length_set]

theorem setEntries_not_mem (L : List Nat) : ∀ (m : List Nat) (i c : Nat), c ∉ L →
    (setEntries m i L).getD c 255 = m.getD c 255 := by
  induction L with
  | nil => intro m i c _; rfl
  | cons b rest ih =>
    intro m i c hc
    have hcb : c ≠ b := fun h => hc (h ▸ List.mem_cons_self b rest)
    have hcr : c ∉ rest := fun h => hc (List.mem_cons_of_mem b h)
    rw [setEntries, ih _ _ _ hcr, List.getD_eq_getElem?_getD, List.getD_eq_getElem?_getD,
      List.getElem?_set_ne (fun h => hcb h.symm)]

theorem setEntries_lookup : ∀ (L : List Nat), L.Nodup →
    ∀ (m : List Nat) (i j : Nat) (hj : j < L.length), (∀ b ∈ L, b < m.length) →
    (setEntries m i L).getD (L.get ⟨j, hj⟩) 255 = i + j := by
  intro L
  induction L with
  | nil => intro _ m i j hj; exact absurd hj (by simp)
  | cons b rest ih =>
    intro hnd m i j hj hb
    have hbrest : b ∉ rest := (List.nodup_cons.mp hnd).1
    rw [setEntries]
    match j with
    | 0 =>
      show (setEntries (m.set b i) (i + 1) rest).getD b 255 = i
      rw [setEntries_not_mem rest _ _ _ hbrest, List.getD_eq_getElem?_getD,
        List.getElem?_set_self (by exact hb b (List.mem_cons_self b rest))]
      rfl
    | k + 1 =>
      show (setEntries (m.set b i) (i + 1) rest).getD
        (rest.get ⟨k, by simpa using hj⟩) 255 = i + (k + 1)
      rw [ih (List.nodup_cons.mp hnd).2 (m.set b i) (i + 1) k (by simpa using hj)
        (fun x hx => by rw [List.length_set]; exact hb x (List.mem_cons_of_mem b hx))]
      omega

theorem new_alphabet_of_len62 (L : List Nat) (h62 : L.length = 62) :
    (New L).alphabet = L := by
  unfold New
  show L.take 62 ++ List.replicate (62 - L.length) 0 = L
  rw [h62, ← h62, List.take_length]
  simp

theorem new_decodeMap_of_len62 (L : List Nat) (h62 : L.length = 62) :
    (New L).decodeMap = setEntries (List.replicate 256 255) 0 L := by
  unfold New
  show setEntries (List.replicate 256 255) 0
    (L.take 62 ++ List.replicate (62 - L.length) 0) = _
  rw [h62, ← h62, List.take_length]
  simp

theorem replicate_getD_255 (c : Nat) : (List.replicate 256 (255 : Nat)).getD c 255 = 255 := by
  by_cases h : c < 256
  · rw [List.getD_eq_getElem _ _ (by simpa using h)]
    exact List.getElem_replicate 255 _
  · exact List.getD_eq_default _ _ (by simpa using Nat.le_of_not_lt h)

/-! ### Behaviour at the panic input -/

/-- The byte `0xFF` is invalid UTF-8, so range iteration yields the
replacement rune `0xFFFD = 65533`. -/
theorem utf8Runes_ff : utf8Runes [255] = [65533] := by
  have hrune : decodeRune 255 ([] : List Nat) = (65533, 1) := by decide
  rw [utf8Runes, hrune]
  show 65533 :: utf8Runes [] = [65533]
  rw [utf8Runes]

/-- Feeding the replacement rune to the chunk loop indexes `decodeMap[65533]`,
out of the array's range: a runtime panic in Go. -/
theorem decodeString_ff : DecodeString StdEncoding [255] = none := by
  have hchunk : chunkTotal StdEncoding [65533] 0 = .error .indexOutOfRange := rfl
  have htake : ([255] : List Nat).take (min ([255] : List Nat).length 10) = [255] := by
    decide
  unfold DecodeString
  rw [decodeLoop]
  simp only [dif_neg (show ¬([255] : List Nat) = [] by simp)]
  rw [htake, utf8Runes_ff, hchunk]

/-! ### The fixed-width encoder refines the arbitrary-precision encoder -/

/-- The spec's words for claim C10 (the abstract side of the refinement):
the minimal big-endian byte representation of `n`, with `n = 0` represented
as the single byte `0x00`. -/
def specMinBeBytes (n : Nat) : List Nat :=
  if n = 0 then [0] else natToBeBytes n

theorem encodeUint64_eq_encodeToString (n : Nat) :
    EncodeUint64 StdEncoding n = EncodeToString StdEncoding (specMinBeBytes n) := by
  unfold specMinBeBytes
  by_cases h : n = 0
  · subst h
    have h1 : EncodeToString StdEncoding [0] = [48] := by
      rw [encodeToString_shape, stdEncoding_idx0,
        show foldVal 256 0 [0] = 0 from rfl, digitsLSB_zero]
      rfl
    have h0 : (if (0 : Nat) = 0 then ([0] : List Nat) else natToBeBytes 0) = [0] := by
      norm_num
    rw [h0, h1]
    rfl
  · rw [if_neg h]
    unfold EncodeUint64
    rw [if_neg h, encodeUint64Loop_eq, encodeToString_shape, foldVal_natToBeBytes]
    obtain ⟨x, xs, hx, hxne⟩ := natToBeBytes_head n h
    rw [hx, List.takeWhile_cons]
    have hxf : (x == 0) = false := by simpa using hxne
    rw [hxf]
    simp

/-! ## The claims -/

/-- Claim C1: for every byte sequence `b` (including the empty sequence and
sequences that are entirely `0x00` bytes), decoding the result of encoding
`b` with the standard encoding table returns exactly `b`. -/
theorem claim_C1 (b : List Nat) (hb : ∀ x ∈ b, x < 256) :
    DecodeString StdEncoding (EncodeToString StdEncoding b) = some b :=
  decodeString_encodeToString b hb

/-- Witness for claim C1 at a concrete byte sequence with leading zeros. -/
theorem claim_C1_witness :
    (∀ x ∈ ([0, 0, 171, 5, 255] : List Nat), x < 256) ∧
    DecodeString StdEncoding (EncodeToString StdEncoding [0, 0, 171, 5, 255]) =
      some [0, 0, 171, 5, 255] :=
  ⟨by decide, claim_C1 [0, 0, 171, 5, 255] (by decide)⟩

/-- Claim C2 fails on the code: in the source `i` is an unsigned byte, so
the guard `i < 0` in `DecodeToUint64` never fires; the out-of-alphabet byte
33 (`'!'`) is folded in as digit value 255 and the call returns the value
255 with no error, instead of the InvalidCharacter failure the claim
requires. -/
theorem claim_C2_bug_eval :
    33 ∉ stdAlphabet ∧ DecodeToUint64 StdEncoding [33] = .ok 255 :=
  ⟨by decide, rfl⟩

/-- Counterexample to claim C3: eleven `'Z'` bytes form a string over the
alphabet whose base62 value `62^11 - 1` is at least `2^64` (its last
multiply-add step exceeds the 64-bit range), yet `DecodeToUint64` returns a
value with no error: the wraparound check only notices overflows whose
reduced value lands below the previous accumulator. -/
theorem claim_C3_counterexample :
    (∀ c ∈ List.replicate 11 90, c ∈ stdAlphabet) ∧
    2 ^ 64 ≤ base62Val StdEncoding (List.replicate 11 90) ∧
    DecodeToUint64 StdEncoding (List.replicate 11 90) =
      .ok 15143072536417990655 :=
  ⟨by decide, by decide, rfl⟩

/-- Claim C3 amended: the Overflow failure is never spurious — every string
over the alphabet whose base62 value is below `2^64` decodes to exactly that
value with no error, so an Overflow failure implies a genuine overflow; the
converse direction of the original claim fails (see the counterexample). -/
theorem claim_C3_amended (s : List Nat) (hs : ∀ c ∈ s, c ∈ stdAlphabet)
    (hlt : base62Val StdEncoding s < 2 ^ 64) :
    DecodeToUint64 StdEncoding s = .ok (base62Val StdEncoding s) :=
  decodeUint64Loop_ok StdEncoding s s 0 hlt

/-- Witness for the amended claim C3 at the two-character string "10". -/
theorem claim_C3_witness :
    (∀ c ∈ ([49, 48] : List Nat), c ∈ stdAlphabet) ∧
    base62Val StdEncoding [49, 48] < 2 ^ 64 ∧
    DecodeToUint64 StdEncoding [49, 48] = .ok (base62Val StdEncoding [49, 48]) :=
  ⟨by decide, by decide, claim_C3_amended [49, 48] (by decide) (by decide)⟩

/-- Claim C4 fails on the code: `DecodeString` iterates the string with
`range`, walking UTF-8 runes rather than bytes, and indexes the 256-entry
`decodeMap` with the rune; the one-byte string `0xFF` is invalid UTF-8 and
yields the replacement rune `0xFFFD = 65533`, so `decodeMap[65533]` panics
with an index-out-of-range runtime error (modelled as `none`) instead of
returning an empty byte sequence. -/
theorem claim_C4_bug_eval : DecodeString StdEncoding [255] = none :=
  decodeString_ff

/-- Claim C5: for every `n` in `[0, 2^64-1]`,
`DecodeToUint64 (EncodeUint64 n)` returns `n` with no error. -/
theorem claim_C5 (n : Nat) (h : n < 2 ^ 64) :
    DecodeToUint64 StdEncoding (EncodeUint64 StdEncoding n) = .ok n := by
  have hb : base62Val StdEncoding (EncodeUint64 StdEncoding n) = n :=
    base62Val_encodeUint64 n
  have h2 : foldVal 62 0 ((EncodeUint64 StdEncoding n).map
      (fun c => StdEncoding.decodeMap.getD c 255)) < 2 ^ 64 := by
    show base62Val StdEncoding (EncodeUint64 StdEncoding n) < 2 ^ 64
    rw [hb]; exact h
  have h3 := decodeUint64Loop_ok StdEncoding (EncodeUint64 StdEncoding n)
    (EncodeUint64 StdEncoding n) 0 h2
  show decodeUint64Loop StdEncoding (EncodeUint64 StdEncoding n)
    (EncodeUint64 StdEncoding n) 0 = Except.ok n
  rw [h3]
  show Except.ok (base62Val StdEncoding (EncodeUint64 StdEncoding n)) = Except.ok n
  rw [hb]

/-- Witness for claim C5 at the largest 64-bit value. -/
theorem claim_C5_witness :
    2 ^ 64 - 1 < 2 ^ 64 ∧
    DecodeToUint64 StdEncoding (EncodeUint64 StdEncoding (2 ^ 64 - 1)) =
      .ok (2 ^ 64 - 1) :=
  ⟨by norm_num, claim_C5 (2 ^ 64 - 1) (by norm_num)⟩

/-- Claim C6: a byte sequence whose maximal `0x00` prefix has length `k`
encodes to a string whose maximal `zeroSymbol` prefix has length exactly
`k`, and decoding that string reproduces exactly `k` leading zero bytes
followed by the zero-stripped remainder. -/
theorem claim_C6 (b : List Nat) (hb : ∀ x ∈ b, x < 256) :
    ((EncodeToString StdEncoding b).takeWhile
      (· == StdEncoding.alphabetIdx0)).length = (b.takeWhile (· == 0)).length ∧
    DecodeString StdEncoding (EncodeToString StdEncoding b) =
      some (List.replicate ((b.takeWhile (· == 0)).length) 0 ++
        b.dropWhile (· == 0)) := by
  constructor
  · rw [stdEncoding_idx0, encodeToString_takeWhile, List.length_replicate]
  · rw [decodeString_encodeToString b hb]
    congr 1
    conv_lhs => rw [← List.takeWhile_append_dropWhile (· == 0) b]
    rw [← takeWhile_zero_eq_replicate]

/-- Witness for claim C6 at a sequence with two leading zero bytes. -/
theorem claim_C6_witness :
    (∀ x ∈ ([0, 0, 7] : List Nat), x < 256) ∧
    ((EncodeToString StdEncoding [0, 0, 7]).takeWhile
      (· == StdEncoding.alphabetIdx0)).length =
      (([0, 0, 7] : List Nat).takeWhile (· == 0)).length ∧
    DecodeString StdEncoding (EncodeToString StdEncoding [0, 0, 7]) =
      some (List.replicate ((([0, 0, 7] : List Nat).takeWhile (· == 0)).length) 0 ++
        ([0, 0, 7] : List Nat).dropWhile (· == 0)) :=
  ⟨by decide, (claim_C6 [0, 0, 7] (by decide)).1, (claim_C6 [0, 0, 7] (by decide)).2⟩

/-- Counterexample to claim C7: under the standard alphabet, twenty zero
bytes do not encode to the ten-character string "0000000000". -/
theorem claim_C7_counterexample :
    EncodeToString StdEncoding (List.replicate 20 0) ≠ List.replicate 10 48 := by
  rw [encode_twenty_zeros]
  decide

/-- Claim C7 amended: twenty zero bytes encode to twenty `zeroSymbol`
characters (one per leading zero byte), i.e. "00000000000000000000". -/
theorem claim_C7_amended :
    EncodeToString StdEncoding (List.replicate 20 0) = List.replicate 20 48 :=
  encode_twenty_zeros

/-- Claim C8: both encoders are total — every output character of
`EncodeToString` and `EncodeUint64` is an alphabet symbol (so every
alphabet access is in bounds), and for any 64-bit value the fixed-width
encoder emits at most 11 digits, fitting its 12-byte buffer. -/
theorem claim_C8 :
    (∀ b : List Nat, ∀ c ∈ EncodeToString StdEncoding b, c ∈ stdAlphabet) ∧
    (∀ n : Nat, n < 2 ^ 64 →
      (∀ c ∈ EncodeUint64 StdEncoding n, c ∈ stdAlphabet) ∧
      (EncodeUint64 StdEncoding n).length ≤ 11) :=
  ⟨encodeToString_mem,
    fun n hn => ⟨encodeUint64_mem n, encodeUint64_length n hn⟩⟩

/-- Witness for claim C8 at a concrete byte sequence and the largest 64-bit
value. -/
theorem claim_C8_witness :
    (∀ c ∈ EncodeToString StdEncoding [0, 255, 7], c ∈ stdAlphabet) ∧
    2 ^ 64 - 1 < 2 ^ 64 ∧
    (∀ c ∈ EncodeUint64 StdEncoding (2 ^ 64 - 1), c ∈ stdAlphabet) ∧
    (EncodeUint64 StdEncoding (2 ^ 64 - 1)).length ≤ 11 :=
  ⟨claim_C8.1 [0, 255, 7], by norm_num,
    (claim_C8.2 (2 ^ 64 - 1) (by norm_num)).1,
    (claim_C8.2 (2 ^ 64 - 1) (by norm_num)).2⟩

/-- Claim C9: for every alphabet of exactly 62 pairwise-distinct byte
values, the table built by `New` maps `alphabet[i]` to digit value `i` for
every `i`, and maps every byte not in the alphabet to the invalid sentinel
255.  (Immutability is structural in this embedding: every codec operation
is a pure function of the table value.) -/
theorem claim_C9 (L : List Nat) (h62 : L.length = 62) (hnd : L.Nodup)
    (hb : ∀ x ∈ L, x < 256) :
    (∀ j (hj : j < L.length), (New L).decodeMap.getD (L.get ⟨j, hj⟩) 255 = j) ∧
    (∀ c, c ∉ L → (New L).decodeMap.getD c 255 = 255) := by
  constructor
  · intro j hj
    rw [new_decodeMap_of_len62 L h62,
      setEntries_lookup L hnd _ 0 j hj (fun x hx => by
        rw [List.length_replicate]; exact hb x hx)]
    omega
  · intro c hc
    rw [new_decodeMap_of_len62 L h62, setEntries_not_mem L _ _ _ hc,
      replicate_getD_255]

/-- Witness for claim C9 at the standard alphabet: digit 5 maps back to 5,
and the byte 33 is marked invalid. -/
theorem claim_C9_witness :
    stdAlphabet.length = 62 ∧ stdAlphabet.Nodup ∧
    (∀ x ∈ stdAlphabet, x < 256) ∧
    (New stdAlphabet).decodeMap.getD (stdAlphabet.get ⟨5, by decide⟩) 255 = 5 ∧
    (New stdAlphabet).decodeMap.getD 33 255 = 255 := by
  refine ⟨by decide, by decide, by decide, ?_, ?_⟩
  · exact (claim_C9 stdAlphabet (by decide) (by decide) (by decide)).1 5 (by decide)
  · exact (claim_C9 stdAlphabet (by decide) (by decide) (by decide)).2 33 (by decide)

/-- Claim C10: for every 64-bit value `n`, `EncodeUint64 n` equals
`EncodeToString` applied to the minimal big-endian byte representation of
`n` (with `n = 0` represented as the single byte `0x00`): the fixed-width
encoder refines the arbitrary-precision one. -/
theorem claim_C10 (n : Nat) (h : n < 2 ^ 64) :
    EncodeUint64 StdEncoding n = EncodeToString StdEncoding (specMinBeBytes n) :=
  encodeUint64_eq_encodeToString n

/-- Witness for claim C10 at `n = 5`. -/
theorem claim_C10_witness :
    (5 : Nat) < 2 ^ 64 ∧
    EncodeUint64 StdEncoding 5 = EncodeToString StdEncoding (specMinBeBytes 5) :=
  ⟨by norm_num, claim_C10 5 (by norm_num)⟩

end Base62
